import Mathlib

/-!
SwiftRT CUDA tensor indexing.

A shallow embedding of `Modules/SwiftRTCuda/index.h` and of the tensor
descriptor of `Modules/SwiftRTCuda/srt_cdefs.h`.

* `uint32_t` values are natural numbers; every `uint32_t` operation of the
  source is followed by an explicit reduction modulo `2 ^ 32` (`u32`).
* `size_t` values of the descriptor are natural numbers.
* The template parameter `Rank` ranges over the three implemented ranks.
* Fixed-size arrays `uint32_t a[Rank]` are functions `Fin Rank → Nat`, so a
  read outside `[0, Rank)` (undefined in the source) cannot be written.
* Host constructors that `assert` return `Option`: `none` is the abort.
-/

namespace SwiftRT

/-! ## Machine integers -/

/-- The largest `uint32_t` value, `UINT32_MAX`. -/
def UINT32_MAX : Nat := 4294967295

/-- Conversion to `uint32_t`: reduction modulo `2 ^ 32`. -/
def u32 (x : Nat) : Nat := x % 4294967296

/-! ## Ranks and counted loops -/

/-- The ranks for which the index templates are instantiated
(`static_assert(Rank <= 3, "only Rank 1 - 3 are implemented")`). -/
inductive Rank where
  | one
  | two
  | three
  deriving DecidableEq

/-- The numeric value of a rank. -/
def Rank.val : Rank → Nat
  | Rank.one => 1
  | Rank.two => 2
  | Rank.three => 3

/-- The loop `for (int i = start; i < n; i++) acc = body(i, acc);` started at
`i` with accumulator `acc`; `fuel` bounds the number of iterations. -/
def forLoop {α : Type} (n : Nat) (body : Fin n → α → α) : Nat → Nat → α → α
  | 0, _, acc => acc
  | fuel + 1, i, acc =>
    if h : i < n then forLoop n body fuel (i + 1) (body ⟨i, h⟩ acc) else acc

/-! ## TensorDescriptor -/

/-- The C struct `srtTensorDescriptor` together with its C++ wrapper
`TensorDescriptor`.  `count` and `spanCount` are `size_t`; `shape`, `strides`
and `logicalStrides` are the `size_t` arrays the three pointers refer to. -/
structure TensorDescriptor where
  /-- The element data type tag (`srtDataType`). -/
  type : Int
  /-- The number of dimensions. -/
  rank : Nat
  /-- The storage layout order (`cublasLtOrder_t`). -/
  order : Nat
  /-- The number of logical elements in the tensor. -/
  count : Nat
  /-- The number of physical storage elements spanned by the tensor. -/
  spanCount : Nat
  /-- The size of each dimension in the tensor. -/
  shape : List Nat
  /-- The stride to the next storage element for each dimension. -/
  strides : List Nat
  /-- The stride to the next logical element position for each dimension. -/
  logicalStrides : List Nat

/-- The method `isDense`: `count == spanCount`. -/
def TensorDescriptor.isDense (t : TensorDescriptor) : Bool :=
  t.count == t.spanCount

/-- The method `isStrided`: `!isDense()`. -/
def TensorDescriptor.isStrided (t : TensorDescriptor) : Bool :=
  !t.isDense

/-- The method `isSingle`: `spanCount == 1`. -/
def TensorDescriptor.isSingle (t : TensorDescriptor) : Bool :=
  t.spanCount == 1

/-! ## Logical -/

/-- The CUDA type `uint3` (also used for `dim3`): three `unsigned int`s. -/
structure uint3 where
  x : Nat
  y : Nat
  z : Nat

/-- The CUDA type `dim3`: three `unsigned int`s. -/
abbrev dim3 := uint3

/-- The struct `Logical<Rank>`: the array `uint32_t position[Rank]`. -/
structure Logical (R : Rank) where
  position : Fin R.val → Nat

/-- The subscript `operator[]` of `Logical<Rank>`. -/
def Logical.get {R : Rank} (p : Logical R) (i : Fin R.val) : Nat :=
  p.position i

/-- The grid coordinate `blockIdx.d * blockDim.d + threadIdx.d` of one grid
dimension, in `unsigned int` arithmetic. -/
def gridCoord (blockIdx blockDim threadIdx : Nat) : Nat :=
  u32 (u32 (blockIdx * blockDim) + threadIdx)

/-- The constructor `Logical<Rank>(blockIdx, blockDim, threadIdx)`. -/
def Logical.init (R : Rank) (blockIdx : uint3) (blockDim : dim3) (threadIdx : uint3) :
    Logical R :=
  match R with
  | Rank.one =>
    ⟨![gridCoord blockIdx.x blockDim.x threadIdx.x]⟩
  | Rank.two =>
    ⟨![gridCoord blockIdx.y blockDim.y threadIdx.y,
       gridCoord blockIdx.x blockDim.x threadIdx.x]⟩
  | Rank.three =>
    ⟨![gridCoord blockIdx.z blockDim.z threadIdx.z,
       gridCoord blockIdx.y blockDim.y threadIdx.y,
       gridCoord blockIdx.x blockDim.x threadIdx.x]⟩

/-! ## Single -/

/-- The struct `Single`: an index without properties (`Rank = 1`). -/
structure Single where

/-- The constructor `Single(tensor)`: its body is empty. -/
def Single.init (_tensor : TensorDescriptor) : Single := {}

/-- The method `Single::isInBounds`: `position[0] == 0`. -/
def Single.isInBounds (_s : Single) (position : Logical Rank.one) : Bool :=
  position.get ⟨0, by decide⟩ == 0

/-- The method `Single::linear`: always `0`. -/
def Single.linear (_s : Single) (_position : Logical Rank.one) : Nat := 0

/-- The method `Single::sequence`: `position[0]`. -/
def Single.sequence (_s : Single) (position : Logical Rank.one) : Nat :=
  position.get ⟨0, by decide⟩

/-! ## Flat -/

/-- The struct `Flat`: a flat dense 1D index with the property
`uint32_t count` (`Rank = 1`). -/
structure Flat where
  count : Nat

/-- The constructor `Flat(tensor)`: `assert(tensor.count == tensor.spanCount)`
and then `count = tensor.count`, a narrowing of `size_t` to `uint32_t`. -/
def Flat.init (tensor : TensorDescriptor) : Option Flat :=
  if tensor.count = tensor.spanCount then some { count := u32 tensor.count } else none

/-- The method `Flat::isInBounds`: `position[0] < count`. -/
def Flat.isInBounds (f : Flat) (position : Logical Rank.one) : Bool :=
  decide (position.get ⟨0, by decide⟩ < f.count)

/-- The method `Flat::linear`: `position[0]`. -/
def Flat.linear (_f : Flat) (position : Logical Rank.one) : Nat :=
  position.get ⟨0, by decide⟩

/-- The method `Flat::sequence`: `position[0]`. -/
def Flat.sequence (_f : Flat) (position : Logical Rank.one) : Nat :=
  position.get ⟨0, by decide⟩

/-! ## Strided -/

/-- The struct `Strided<Rank>`: `uint32_t count`, `uint32_t shape[Rank]` and
`uint32_t strides[Rank]`. -/
structure Strided (R : Rank) where
  count : Nat
  shape : Fin R.val → Nat
  strides : Fin R.val → Nat

/-- The constructor `Strided<Rank>(tensor)`.  It sets `count = tensor.count`
(narrowed to `uint32_t`) and, for every `i < Rank`, asserts
`tensor.shape[i] <= UINT32_MAX && tensor.strides[i] <= UINT32_MAX` and stores
`uint32_t(tensor.shape[i])` and `uint32_t(tensor.strides[i])`.  The result is
`none` when an assertion aborts, or when one of the two arrays has fewer
than `Rank` entries (the read is then undefined in the source). -/
def Strided.init (R : Rank) (tensor : TensorDescriptor) : Option (Strided R) :=
  if h : R.val ≤ tensor.shape.length ∧ R.val ≤ tensor.strides.length then
    if ∀ i : Fin R.val,
        tensor.shape.get ⟨i.val, lt_of_lt_of_le i.isLt h.1⟩ ≤ UINT32_MAX ∧
        tensor.strides.get ⟨i.val, lt_of_lt_of_le i.isLt h.2⟩ ≤ UINT32_MAX then
      some
        { count := u32 tensor.count
          shape := fun i => u32 (tensor.shape.get ⟨i.val, lt_of_lt_of_le i.isLt h.1⟩)
          strides := fun i => u32 (tensor.strides.get ⟨i.val, lt_of_lt_of_le i.isLt h.2⟩) }
    else none
  else none

/-- The method `Strided::isInBounds`: `inBounds = position[0] < shape[0]`,
then for `i` from `1` below `Rank`,
`inBounds = inBounds && position[i] < shape[i]`. -/
def Strided.isInBounds {R : Rank} (s : Strided R) (position : Logical R) : Bool :=
  forLoop R.val
    (fun i inBounds => inBounds && decide (position.get i < s.shape i))
    R.val 1
    (decide (position.get ⟨0, by cases R <;> decide⟩ < s.shape ⟨0, by cases R <;> decide⟩))

/-- The method `Strided::linear`: `index = 0`, then for `i` from `0` below
`Rank`, `index += position[i] * strides[i]`, all in `uint32_t`. -/
def Strided.linear {R : Rank} (s : Strided R) (position : Logical R) : Nat :=
  forLoop R.val
    (fun i index => u32 (index + u32 (position.get i * s.strides i)))
    R.val 0 0

/-! ## StridedSeq -/

/-- The struct `StridedSeq<R>`: a `Strided<R>` with the additional property
`uint32_t logicalStrides[R]`. -/
structure StridedSeq (R : Rank) extends Strided R where
  logicalStrides : Fin R.val → Nat

/-- The constructor `StridedSeq<R>(tensor)`: the base constructor
`Strided<R>(tensor)` runs first; then, for every `i < R`, it asserts
`tensor.shape[i] <= UINT32_MAX && tensor.strides[i] <= UINT32_MAX` and stores
`uint32_t(tensor.logicalStrides[i])`. -/
def StridedSeq.init (R : Rank) (tensor : TensorDescriptor) : Option (StridedSeq R) :=
  match Strided.init R tensor with
  | none => none
  | some base =>
    if h : R.val ≤ tensor.shape.length ∧ R.val ≤ tensor.strides.length ∧
        R.val ≤ tensor.logicalStrides.length then
      if ∀ i : Fin R.val,
          tensor.shape.get ⟨i.val, lt_of_lt_of_le i.isLt h.1⟩ ≤ UINT32_MAX ∧
          tensor.strides.get ⟨i.val, lt_of_lt_of_le i.isLt h.2.1⟩ ≤ UINT32_MAX then
        some
          { toStrided := base
            logicalStrides := fun i =>
              u32 (tensor.logicalStrides.get ⟨i.val, lt_of_lt_of_le i.isLt h.2.2⟩) }
      else none
    else none

/-- The method `StridedSeq::sequence`: `index = 0`, then for `i` from `0`
below `R`, `index += position[i] * logicalStrides[i]`, all in `uint32_t`. -/
def StridedSeq.sequence {R : Rank} (s : StridedSeq R) (position : Logical R) : Nat :=
  forLoop R.val
    (fun i index => u32 (index + u32 (position.get i * s.logicalStrides i)))
    R.val 0 0

/-! ## Specification-side definitions -/

/-- Specification: the positions below `shape` in row-major order, axis `0`
slowest and the last axis fastest (the order of the nested loops
`for p0 < shape[0]: for p1 < shape[1]: ...`). -/
def rowMajorPositions : (n : Nat) → (Fin n → Nat) → List (Fin n → Nat)
  | 0, _ => [fun i => i.elim0]
  | n + 1, shape =>
    (List.range (shape 0)).flatMap fun i =>
      (rowMajorPositions n (Fin.tail shape)).map fun q => Fin.cons i q

/-- Specification: the logical positions of a shape in row-major order. -/
def Logical.rowMajor {R : Rank} (shape : Fin R.val → Nat) : List (Logical R) :=
  (rowMajorPositions R.val shape).map Logical.mk

/-- Specification: the strict lexicographic order on logical positions. -/
def Logical.lexLt {R : Rank} (p q : Logical R) : Prop :=
  ∃ k : Fin R.val, (∀ j : Fin R.val, j < k → p.get j = q.get j) ∧ p.get k < q.get k

/-- Specification: `ls` are the dense row-major strides of `shape`: the last
stride is `1` and `ls[i] = ls[i+1] * shape[i+1]`. -/
def IsDenseRowMajor {n : Nat} (shape ls : Fin n → Nat) : Prop :=
  (∀ i : Fin n, i.val + 1 = n → ls i = 1) ∧
  (∀ i j : Fin n, j.val = i.val + 1 → ls i = ls j * shape j)

instance {n : Nat} (shape ls : Fin n → Nat) : Decidable (IsDenseRowMajor shape ls) := by
  unfold IsDenseRowMajor
  infer_instance

/-- Specification: the dense row-major strides of a shape given as a list;
each stride is the product of the extents to its right. -/
def denseRowMajorStrides : List Nat → List Nat
  | [] => []
  | _ :: rest => rest.prod :: denseRowMajorStrides rest

/-- The last axis `Rank - 1`. -/
def Rank.last (R : Rank) : Fin R.val :=
  ⟨R.val - 1, by cases R <;> decide⟩

/-- Modelled from the spec: the kernel templates that store through an index
are not part of the sources; a buffer is its content at every offset. -/
def Buffer (α : Type) : Type := Nat → α

/-- Modelled from the spec: the store of one value at one offset of a buffer
(the kernel templates are not part of the sources). -/
def Buffer.write {α : Type} (buf : Buffer α) (offset : Nat) (value : α) : Buffer α :=
  fun k => if k = offset then value else buf k

/-- Modelled from the spec: the load of the value at one offset of a buffer
(the kernel templates are not part of the sources). -/
def Buffer.read {α : Type} (buf : Buffer α) (offset : Nat) : α := buf offset

/-- Modelled from the spec: the round trip of section 8, a store at the
offset `StridedSeq::sequence(p)` followed by a load at the offset
`Strided::linear(p)`, both indexes being the same `StridedSeq` object. -/
def StridedSeq.roundTrip {α : Type} {R : Rank} (s : StridedSeq R) (p : Logical R)
    (buf : Buffer α) (value : α) : α :=
  (buf.write (s.sequence p) value).read (s.linear p)

/-! ## Concrete descriptors and indexes -/

/-- A dense row-major descriptor of shape `[2, 3]`. -/
def denseDesc : TensorDescriptor :=
  { type := 0, rank := 2, order := 0, count := 6, spanCount := 6,
    shape := [2, 3], strides := [3, 1], logicalStrides := [3, 1] }

/-- A permuted (column-major) descriptor of shape `[2, 3]`. -/
def permutedDesc : TensorDescriptor :=
  { type := 0, rank := 2, order := 0, count := 6, spanCount := 6,
    shape := [2, 3], strides := [1, 2], logicalStrides := [3, 1] }

/-- A dense descriptor of rank 1 with five elements. -/
def denseDesc1 : TensorDescriptor :=
  { type := 0, rank := 1, order := 0, count := 5, spanCount := 5,
    shape := [5], strides := [1], logicalStrides := [1] }

/-- The index `StridedSeq<2>(denseDesc)`. -/
def denseSeq : StridedSeq Rank.two :=
  (StridedSeq.init Rank.two denseDesc).get (by decide)

/-- The index `StridedSeq<2>(permutedDesc)`. -/
def permutedSeq : StridedSeq Rank.two :=
  (StridedSeq.init Rank.two permutedDesc).get (by decide)

/-- A `Strided<2>` index of shape `[2, 3]` whose axis `0` is broadcast. -/
def broadcastStrided : Strided Rank.two :=
  { count := 6, shape := ![2, 3], strides := ![0, 1] }

/-- A `Strided<2>` index whose span is a single storage element. -/
def scalarStrided : Strided Rank.two :=
  { count := 3, shape := ![1, 3], strides := ![7, 0] }

/-- A descriptor of shape `[2, 2]` with strides `[0, 3]`: `count` is the
product of the shape, `spanCount` is `1 + (2-1)*0 + (2-1)*3`, both are `4`,
and the two rows overlap. -/
def overlapDesc : TensorDescriptor :=
  { type := 0, rank := 2, order := 0, count := 4, spanCount := 4,
    shape := [2, 2], strides := [0, 3], logicalStrides := [2, 1] }

/-- The index `Strided<2>(overlapDesc)`. -/
def overlapStrided : Strided Rank.two :=
  (Strided.init Rank.two overlapDesc).get (by decide)

/-- A descriptor of shape `[2, 65536, 65536]` whose axis `0` is broadcast.
Its dense row-major logical strides are `[2^32, 65536, 1]`; every extent and
every physical stride fits 32 bits. -/
def truncDesc : TensorDescriptor :=
  { type := 0, rank := 3, order := 0, count := 8589934592, spanCount := 4294967296,
    shape := [2, 65536, 65536], strides := [0, 65536, 1],
    logicalStrides := [4294967296, 65536, 1] }

/-- The index `StridedSeq<3>(truncDesc)`. -/
def truncSeq : StridedSeq Rank.three :=
  (StridedSeq.init Rank.three truncDesc).get (by decide)

/-- A dense rank-1 descriptor with `2^32 + 5` elements. -/
def hugeDesc : TensorDescriptor :=
  { type := 0, rank := 1, order := 0, count := 4294967301, spanCount := 4294967301,
    shape := [4294967301], strides := [1], logicalStrides := [1] }

/-- A rank-1 descriptor of shape `[5]` that broadcasts one stored element
(stride `0`, `spanCount == 1`). -/
def broadcastScalarDesc : TensorDescriptor :=
  { type := 0, rank := 1, order := 0, count := 5, spanCount := 1,
    shape := [5], strides := [0], logicalStrides := [1] }

/-! ## Integer element types and `sign` (mathSupplemental.h) -/

/-- The integer C++ element types at which the template `sign` and its
scalar overloads are used. -/
inductive IntType where
  | int8_t
  | int16_t
  | int32_t
  | int64_t
  | uint8_t
  | uint16_t
  | uint32_t
  | uint64_t
  deriving DecidableEq

/-- The width of an integer type in bits. -/
def IntType.bits : IntType → Nat
  | IntType.int8_t => 8
  | IntType.int16_t => 16
  | IntType.int32_t => 32
  | IntType.int64_t => 64
  | IntType.uint8_t => 8
  | IntType.uint16_t => 16
  | IntType.uint32_t => 32
  | IntType.uint64_t => 64

/-- Whether an integer type is signed. -/
def IntType.isSigned : IntType → Bool
  | IntType.int8_t => true
  | IntType.int16_t => true
  | IntType.int32_t => true
  | IntType.int64_t => true
  | _ => false

/-- The conversion `T(v)` of an integer value to the type `T`: reduction
modulo `2 ^ bits` into the range of `T` (two-complement for signed types). -/
def IntType.convert (T : IntType) (v : Int) : Int :=
  if T.isSigned then (v + 2 ^ (T.bits - 1)) % 2 ^ T.bits - 2 ^ (T.bits - 1)
  else v % 2 ^ T.bits

/-- The values an object of type `T` can hold. -/
def IntType.InRange (T : IntType) (a : Int) : Prop :=
  if T.isSigned then -(2 ^ (T.bits - 1)) ≤ a ∧ a < 2 ^ (T.bits - 1)
  else 0 ≤ a ∧ a < 2 ^ T.bits

instance (T : IntType) (a : Int) : Decidable (T.InRange a) := by
  unfold IntType.InRange
  infer_instance

/-- The template `sign<T>`: `a < T(0) ? T(-1) : T(1)`. -/
def sign (T : IntType) (a : Int) : Int :=
  if a < T.convert 0 then T.convert (-1) else T.convert 1

/-- The overload `sign(const uint16_t&)`: `return 1`. -/
def sign_uint16 (_a : Nat) : Nat := 1

/-- The overload `sign(const uint8_t&)`: `return 1`. -/
def sign_uint8 (_a : Nat) : Nat := 1

/-- The CUDA type `uchar4`: four `unsigned char` lanes. -/
structure uchar4 where
  x : Nat
  y : Nat
  z : Nat
  w : Nat

/-- The CUDA type `char4`: four `signed char` lanes. -/
structure char4 where
  x : Int
  y : Int
  z : Int
  w : Int

/-- The CUDA type `ushort2`: two `unsigned short` lanes. -/
structure ushort2 where
  x : Nat
  y : Nat

/-- The CUDA type `short2`: two `short` lanes. -/
structure short2 where
  x : Int
  y : Int

/-- The order of the bytes of a multi-byte integer in memory. -/
inductive ByteOrder where
  | little
  | big
  deriving DecidableEq

/-- The byte at address offset `k` (from `0` to `3`) of a `uint32_t` value
stored in the given byte order. -/
def wordByte (order : ByteOrder) (value : Nat) (k : Nat) : Nat :=
  match order with
  | ByteOrder.little => value / 256 ^ k % 256
  | ByteOrder.big => value / 256 ^ (3 - k) % 256

/-- The 16-bit value whose two bytes, in increasing address order, are `b0`
and `b1`. -/
def halfWord (order : ByteOrder) (b0 b1 : Nat) : Nat :=
  match order with
  | ByteOrder.little => b0 + 256 * b1
  | ByteOrder.big => 256 * b0 + b1

/-- Modelled from the spec: the macro `CAST` of the header
`dispatchHelpers.h` is not part of the sources.  Its uses in
`mathSupplemental.h` (it turns the 32-bit result of the SIMD intrinsics into
a vector type) show a reinterpretation of the bytes of a 32-bit word as the
lanes of the vector; this is `CAST(uchar4, value)`, the byte order being a
parameter. -/
def CAST_uchar4 (order : ByteOrder) (value : Nat) : uchar4 :=
  { x := wordByte order value 0, y := wordByte order value 1,
    z := wordByte order value 2, w := wordByte order value 3 }

/-- Modelled from the spec: the macro `CAST` of the header
`dispatchHelpers.h` is not part of the sources; this is
`CAST(ushort2, value)`, the reinterpretation of the bytes of a 32-bit word as
two 16-bit lanes, the byte order being a parameter. -/
def CAST_ushort2 (order : ByteOrder) (value : Nat) : ushort2 :=
  { x := halfWord order (wordByte order value 0) (wordByte order value 1),
    y := halfWord order (wordByte order value 2) (wordByte order value 3) }

/-- The overload `sign(const uchar4&)`: `value = 0x01010101`, then
`CAST(uchar4, value)`. -/
def sign_uchar4 (order : ByteOrder) (_a : uchar4) : uchar4 :=
  CAST_uchar4 order 0x01010101

/-- The overload `sign(const char4&)`: each lane of the result is
`a.lane < 0 ? -1 : 1`, stored into a `signed char`. -/
def sign_char4 (a : char4) : char4 :=
  { w := IntType.int8_t.convert (if a.w < 0 then -1 else 1)
    x := IntType.int8_t.convert (if a.x < 0 then -1 else 1)
    y := IntType.int8_t.convert (if a.y < 0 then -1 else 1)
    z := IntType.int8_t.convert (if a.z < 0 then -1 else 1) }

/-- The overload `sign(const ushort2&)`: `value = 0x00010001`, then
`CAST(ushort2, value)`. -/
def sign_ushort2 (order : ByteOrder) (_a : ushort2) : ushort2 :=
  CAST_ushort2 order 0x00010001

/-- The overload `sign(const short2&)`: each lane of the result is
`a.lane < 0 ? -1 : 1`, stored into a `short`. -/
def sign_short2 (a : short2) : short2 :=
  { x := IntType.int16_t.convert (if a.x < 0 then -1 else 1)
    y := IntType.int16_t.convert (if a.y < 0 then -1 else 1) }

/-! ## Loops -/

/-- Fuel beyond the number of remaining iterations does not change the
result of a loop: the fuel `n` used by the index methods always suffices. -/
theorem forLoop_fuel {α : Type} (n : Nat) (body : Fin n → α → α) :
    ∀ (fuel i : Nat) (acc : α), n - i ≤ fuel →
      forLoop n body fuel i acc = forLoop n body (n - i) i acc := by
  intro fuel
  induction fuel with
  | zero =>
    intro i acc h
    have : n - i = 0 := by omega
    rw [this]
  | succ fuel ih =>
    intro i acc h
    by_cases hi : i < n
    · have e : n - i = (n - (i + 1)) + 1 := by omega
      rw [e]
      simp only [forLoop, dif_pos hi]
      rw [ih (i + 1) _ (by omega)]
    · have e : n - i = 0 := by omega
      rw [e]
      simp only [forLoop, dif_neg hi]

/-- The accumulation loop `index += f(i)` in `uint32_t`, run over all axes
from `index = 0`, computes the sum of the terms modulo `2 ^ 32`. -/
theorem sumLoop_eq (R : Rank) (f : Fin R.val → Nat) :
    forLoop R.val (fun i index => u32 (index + u32 (f i))) R.val 0 0
      = (∑ i, f i) % 2 ^ 32 := by
  cases R
  all_goals simp only [forLoop, Rank.val, Fin.sum_univ_succ, u32]
  all_goals simp
  all_goals omega

/-- The method `Strided::linear` as a sum modulo `2 ^ 32`. -/
theorem Strided.linear_eq_sum {R : Rank} (s : Strided R) (p : Logical R) :
    s.linear p = (∑ i, p.get i * s.strides i) % 2 ^ 32 :=
  sumLoop_eq R (fun i => p.get i * s.strides i)

/-- The method `StridedSeq::sequence` as a sum modulo `2 ^ 32`. -/
theorem StridedSeq.sequence_eq_sum {R : Rank} (s : StridedSeq R) (p : Logical R) :
    s.sequence p = (∑ i, p.get i * s.logicalStrides i) % 2 ^ 32 :=
  sumLoop_eq R (fun i => p.get i * s.logicalStrides i)

/-- The method `Strided::isInBounds` holds exactly when every component is
below its extent. -/
theorem Strided.isInBounds_iff {R : Rank} (s : Strided R) (p : Logical R) :
    s.isInBounds p = true ↔ ∀ i, p.get i < s.shape i := by
  cases R
  all_goals simp [Strided.isInBounds, forLoop, Rank.val, Fin.forall_fin_succ, and_assoc]

/-- For rank 1 the method `Strided::linear` is one product. -/
theorem Strided.linear_rank_one (s : Strided Rank.one) (p : Logical Rank.one) :
    s.linear p = (p.get ⟨0, by decide⟩ * s.strides ⟨0, by decide⟩) % 2 ^ 32 := by
  rw [s.linear_eq_sum p]
  simp [Rank.val]

/-! ## Constructors -/

/-- A checked list read agrees with the defaulted read. -/
theorem listGet_eq_getD (l : List Nat) (i : Nat) (h : i < l.length) :
    l.get ⟨i, h⟩ = l.getD i 0 := by
  simp [List.getD_eq_getElem?_getD, List.getElem?_eq_getElem h]

/-- What a successful `Strided<Rank>(tensor)` stores. -/
theorem Strided.init_stores_exact {R : Rank} {t : TensorDescriptor} {s : Strided R}
    (h : Strided.init R t = some s) :
    s.count = u32 t.count ∧
    (∀ i : Fin R.val, s.shape i = t.shape.getD i.val 0 ∧ t.shape.getD i.val 0 ≤ UINT32_MAX ∧
      i.val < t.shape.length) ∧
    (∀ i : Fin R.val, s.strides i = t.strides.getD i.val 0 ∧
      t.strides.getD i.val 0 ≤ UINT32_MAX ∧ i.val < t.strides.length) := by
  unfold Strided.init at h
  split at h
  next hlen =>
    split at h
    next hassert =>
      cases h
      refine ⟨rfl, fun i => ?_, fun i => ?_⟩
      · have hi : i.val < t.shape.length := lt_of_lt_of_le i.isLt hlen.1
        have hb := (hassert i).1
        rw [← listGet_eq_getD t.shape i.val hi]
        refine ⟨?_, hb, hi⟩
        simp only [u32]
        unfold UINT32_MAX at hb
        omega
      · have hi : i.val < t.strides.length := lt_of_lt_of_le i.isLt hlen.2
        have hb := (hassert i).2
        rw [← listGet_eq_getD t.strides i.val hi]
        refine ⟨?_, hb, hi⟩
        simp only [u32]
        unfold UINT32_MAX at hb
        omega
    next => cases h
  next => cases h

/-- What a successful `StridedSeq<R>(tensor)` stores. -/
theorem StridedSeq.init_stores_logicalStrides {R : Rank} {t : TensorDescriptor} {s : StridedSeq R}
    (h : StridedSeq.init R t = some s) :
    Strided.init R t = some s.toStrided ∧
    ∀ i : Fin R.val, s.logicalStrides i = u32 (t.logicalStrides.getD i.val 0) := by
  unfold StridedSeq.init at h
  split at h
  next => cases h
  next base hbase =>
    split at h
    next hlen =>
      split at h
      next hassert =>
        cases h
        refine ⟨hbase, fun i => ?_⟩
        have hi : i.val < t.logicalStrides.length := lt_of_lt_of_le i.isLt hlen.2.2
        rw [← listGet_eq_getD t.logicalStrides i.val hi]
      next => cases h
    next => cases h

/-- What a successful `Flat(tensor)` has checked and stored. -/
theorem Flat.init_checks_dense {t : TensorDescriptor} {f : Flat} (h : Flat.init t = some f) :
    t.count = t.spanCount ∧ f.count = u32 t.count := by
  unfold Flat.init at h
  split at h
  next hd => cases h; exact ⟨hd, rfl⟩
  next => cases h

/-! ## Row-major enumeration -/

/-- A position is enumerated exactly when every component is below its
extent. -/
theorem mem_rowMajorPositions : ∀ (n : Nat) (shape p : Fin n → Nat),
    p ∈ rowMajorPositions n shape ↔ ∀ i, p i < shape i := by
  intro n
  induction n with
  | zero =>
    intro shape p
    simp only [rowMajorPositions, List.mem_singleton]
    constructor
    · intro _ i; exact i.elim0
    · intro _; funext i; exact i.elim0
  | succ n ih =>
    intro shape p
    simp only [rowMajorPositions, List.mem_flatMap, List.mem_range, List.mem_map, ih]
    constructor
    · rintro ⟨a, ha, q, hq, rfl⟩
      intro i
      refine Fin.cases ?_ ?_ i
      · simpa using ha
      · intro j; simpa using hq j
    · intro h
      refine ⟨p 0, h 0, Fin.tail p, fun i => h i.succ, ?_⟩
      exact Fin.cons_self_tail p

/-- The enumeration is strictly increasing in the lexicographic order. -/
theorem pairwise_rowMajorPositions : ∀ (n : Nat) (shape : Fin n → Nat),
    (rowMajorPositions n shape).Pairwise
      (fun p q => ∃ k : Fin n, (∀ j : Fin n, j < k → p j = q j) ∧ p k < q k) := by
  intro n
  induction n with
  | zero =>
    intro shape
    simp [rowMajorPositions]
  | succ n ih =>
    intro shape
    simp only [rowMajorPositions]
    rw [List.pairwise_flatMap]
    constructor
    · intro a _
      rw [List.pairwise_map]
      refine (ih (Fin.tail shape)).imp ?_
      rintro q q2 ⟨k, hk, hlt⟩
      refine ⟨k.succ, fun j hj => ?_, by simpa using hlt⟩
      refine Fin.cases ?_ (fun j2 hj2 => ?_) j hj
      · intro _; simp
      · simpa using hk j2 (by simpa using hj2)
    · refine (List.pairwise_lt_range (shape 0)).imp ?_
      intro a b hab x hx y hy
      simp only [List.mem_map] at hx hy
      obtain ⟨q, _, rfl⟩ := hx
      obtain ⟨q2, _, rfl⟩ := hy
      exact ⟨0, fun j hj => absurd hj (by simp), by simpa using hab⟩

/-- Counting to `a * b` is counting `b` steps for each of `a` rows. -/
theorem range_mul_eq_flatMap (a b : Nat) :
    (List.range a).flatMap (fun i => (List.range b).map (fun k => i * b + k))
      = List.range (a * b) := by
  induction a with
  | zero => simp
  | succ a ih =>
    rw [List.range_succ, List.flatMap_append, ih]
    simp only [List.flatMap_cons, List.flatMap_nil, List.append_nil]
    rw [Nat.succ_mul, List.range_add]

/-- Dense row-major strides stay dense when axis `0` is dropped. -/
theorem IsDenseRowMajor.tail {n : Nat} {shape ls : Fin (n + 1) → Nat}
    (h : IsDenseRowMajor shape ls) : IsDenseRowMajor (Fin.tail shape) (Fin.tail ls) := by
  refine ⟨fun i hi => ?_, fun i j hij => ?_⟩
  · exact h.1 i.succ (by simp [hi])
  · exact h.2 i.succ j.succ (by simp [hij])

/-- The dense row-major stride of axis `0` is the product of the other
extents. -/
theorem IsDenseRowMajor.head_eq_prod : ∀ (n : Nat) (shape ls : Fin (n + 1) → Nat),
    IsDenseRowMajor shape ls → ls 0 = ∏ i, Fin.tail shape i := by
  intro n
  induction n with
  | zero =>
    intro shape ls h
    simpa using h.1 0 (by simp)
  | succ n ih =>
    intro shape ls h
    have h1 := h.2 0 1 (by simp)
    have h2 := ih (Fin.tail shape) (Fin.tail ls) h.tail
    rw [Fin.prod_univ_succ, h1]
    have e1 : Fin.tail ls 0 = ls 1 := rfl
    have e2 : Fin.tail shape 0 = shape 1 := rfl
    rw [← e1, h2, e2, Nat.mul_comm]
    rfl

/-- With dense row-major strides the exact weighted sum numbers the
enumerated positions `0, 1, 2, ...`. -/
theorem map_dot_rowMajorPositions : ∀ (n : Nat) (shape ls : Fin n → Nat),
    IsDenseRowMajor shape ls →
    (rowMajorPositions n shape).map (fun p => ∑ i, p i * ls i)
      = List.range (∏ i, shape i) := by
  intro n
  induction n with
  | zero =>
    intro shape ls _
    simp [rowMajorPositions]
    rfl
  | succ n ih =>
    intro shape ls h
    have hP := IsDenseRowMajor.head_eq_prod n shape ls h
    have ih1 := ih (Fin.tail shape) (Fin.tail ls) h.tail
    simp only [rowMajorPositions, List.map_flatMap, List.map_map]
    rw [Fin.prod_univ_succ, ← range_mul_eq_flatMap]
    congr 1
    funext a
    have e : (∏ i : Fin n, shape i.succ) = ∏ i, Fin.tail shape i := rfl
    rw [e, ← ih1, List.map_map]
    apply List.map_congr_left
    intro q _
    simp only [Function.comp, Fin.sum_univ_succ, Fin.cons_zero, Fin.cons_succ]
    rw [hP]
    rfl

/-- Membership in the row-major list of logical positions. -/
theorem Logical.mem_rowMajor {R : Rank} (shape : Fin R.val → Nat) (p : Logical R) :
    p ∈ Logical.rowMajor shape ↔ ∀ i, p.get i < shape i := by
  unfold Logical.rowMajor
  rw [List.mem_map]
  constructor
  · rintro ⟨q, hq, rfl⟩
    exact (mem_rowMajorPositions R.val shape q).mp hq
  · intro h
    exact ⟨p.position, (mem_rowMajorPositions R.val shape p.position).mpr h, rfl⟩

/-- The exact weighted sum over the row-major list of logical positions. -/
theorem Logical.map_dot_rowMajor {R : Rank} (shape ls : Fin R.val → Nat)
    (h : IsDenseRowMajor shape ls) :
    (Logical.rowMajor shape).map (fun p => ∑ i, p.get i * ls i)
      = List.range (∏ i, shape i) := by
  unfold Logical.rowMajor
  rw [List.map_map]
  exact map_dot_rowMajorPositions R.val shape ls h

/-- The method `StridedSeq::sequence` numbers the row-major list of
positions `0, 1, 2, ...` when the element count fits 32 bits. -/
theorem StridedSeq.map_sequence_rowMajor {R : Rank} (s : StridedSeq R)
    (hcount : ∏ i, s.shape i < 2 ^ 32)
    (hdense : IsDenseRowMajor s.shape s.logicalStrides) :
    (Logical.rowMajor s.shape).map s.sequence = List.range (∏ i, s.shape i) := by
  have hdot := Logical.map_dot_rowMajor s.shape s.logicalStrides hdense
  rw [← hdot]
  apply List.map_congr_left
  intro p hp
  have hmem : (∑ i, p.get i * s.logicalStrides i) ∈ List.range (∏ i, s.shape i) := by
    rw [← hdot]
    exact List.mem_map_of_mem (fun p : Logical R => ∑ i, p.get i * s.logicalStrides i) hp
  rw [s.sequence_eq_sum p]
  exact Nat.mod_eq_of_lt (lt_trans (List.mem_range.mp hmem) hcount)

/-- The list of dense row-major strides has one entry per axis. -/
theorem denseRowMajorStrides_length (shape : List Nat) :
    (denseRowMajorStrides shape).length = shape.length := by
  induction shape with
  | nil => rfl
  | cons a rest ih => simp [denseRowMajorStrides, ih]

/-- The last dense row-major stride is `1`. -/
theorem denseRowMajorStrides_last (shape : List Nat) (i : Nat) (h : i + 1 = shape.length) :
    (denseRowMajorStrides shape).getD i 0 = 1 := by
  induction shape generalizing i with
  | nil => simp at h
  | cons a rest ih =>
    cases i with
    | zero =>
      have : rest = [] := by
        cases rest with
        | nil => rfl
        | cons b r => simp at h
      simp [denseRowMajorStrides, this]
    | succ j =>
      have := ih j (by simpa using h)
      simpa [denseRowMajorStrides] using this

/-- Each dense row-major stride is the next stride times the next extent. -/
theorem denseRowMajorStrides_rec (shape : List Nat) :
    ∀ i, i + 1 < shape.length →
      (denseRowMajorStrides shape).getD i 0
        = (denseRowMajorStrides shape).getD (i + 1) 0 * shape.getD (i + 1) 0 := by
  induction shape with
  | nil => intro i h; simp at h
  | cons a rest ih =>
    intro i h
    cases i with
    | zero =>
      cases rest with
      | nil => simp at h
      | cons b rest2 =>
        simp [denseRowMajorStrides, Nat.mul_comm]
    | succ j =>
      have := ih j (by simpa using h)
      simpa [denseRowMajorStrides] using this

/-! ## Claims about the index strategies -/

/-- C1: for every rank and every `Strided` index, `linear(p)` is the sum of
`p[i] * strides[i]` over all axes reduced modulo `2 ^ 32`; it is the exact sum
whenever that sum is below `2 ^ 32`; and with shape `[2, 3]` and strides
`[3, 1]` the position `[1, 2]` has offset `5`. -/
theorem Strided.linear_spec (R : Rank) (s : Strided R) (p : Logical R) :
    s.linear p = (∑ i, p.get i * s.strides i) % 2 ^ 32 ∧
    ((∑ i, p.get i * s.strides i) < 2 ^ 32 →
      s.linear p = ∑ i, p.get i * s.strides i) ∧
    (Strided.mk 6 ![2, 3] ![3, 1] : Strided Rank.two).linear ⟨![1, 2]⟩ = 5 := by
  refine ⟨s.linear_eq_sum p, fun h => ?_, by decide⟩
  rw [s.linear_eq_sum p, Nat.mod_eq_of_lt h]

/-- C2: for every rank and every `Strided` index, `isInBounds(p)` is true
exactly when every component of `p` is below its extent; so one component at
or above its extent makes it false, and an extent `0` makes it false for
every position. -/
theorem Strided.isInBounds_spec (R : Rank) (s : Strided R) (p : Logical R) :
    (s.isInBounds p = true ↔ ∀ i, p.get i < s.shape i) ∧
    (∀ k, s.shape k ≤ p.get k → s.isInBounds p = false) ∧
    (∀ k, s.shape k = 0 → s.isInBounds p = false) := by
  have key := s.isInBounds_iff p
  refine ⟨key, fun k hk => ?_, fun k hk => ?_⟩
  · cases hb : s.isInBounds p
    · rfl
    · exact absurd (key.mp hb k) (by omega)
  · cases hb : s.isInBounds p
    · rfl
    · exact absurd (key.mp hb k) (by omega)

/-- C3: for every rank and every `StridedSeq` index whose element count
(the product of its shape) is below `2 ^ 32` and whose logical strides are
the dense row-major strides of its shape, `sequence` is a bijection from the
in-bounds positions onto the numbers below the element count; the in-bounds
positions are exactly those of the row-major enumeration, which is strictly
increasing lexicographically, and `sequence` sends its `k`-th position to
`k`.  The physical strides and the stored count are arbitrary. -/
theorem StridedSeq.sequence_rowMajor_bijection (R : Rank) (s : StridedSeq R)
    (hcount : ∏ i, s.shape i < 2 ^ 32)
    (hdense : IsDenseRowMajor s.shape s.logicalStrides) :
    Set.BijOn s.sequence {p | s.isInBounds p = true} {k | k < ∏ i, s.shape i} ∧
    (∀ p, p ∈ Logical.rowMajor s.shape ↔ s.isInBounds p = true) ∧
    (Logical.rowMajor s.shape).Pairwise Logical.lexLt ∧
    (Logical.rowMajor s.shape).map s.sequence = List.range (∏ i, s.shape i) := by
  have hmap := s.map_sequence_rowMajor hcount hdense
  have hmem : ∀ p, p ∈ Logical.rowMajor s.shape ↔ s.isInBounds p = true := fun p => by
    rw [Logical.mem_rowMajor, s.toStrided.isInBounds_iff]
  have hnodup : ((Logical.rowMajor s.shape).map s.sequence).Nodup := by
    rw [hmap]; exact List.nodup_range _
  refine ⟨⟨?_, ?_, ?_⟩, hmem, ?_, hmap⟩
  · intro p hp
    have : s.sequence p ∈ (Logical.rowMajor s.shape).map s.sequence :=
      List.mem_map_of_mem _ ((hmem p).mpr hp)
    rw [hmap] at this
    exact List.mem_range.mp this
  · intro p hp q hq hpq
    exact List.inj_on_of_nodup_map hnodup ((hmem p).mpr hp) ((hmem q).mpr hq) hpq
  · intro k hk
    have : k ∈ (Logical.rowMajor s.shape).map s.sequence := by
      rw [hmap]; exact List.mem_range.mpr hk
    obtain ⟨p, hp, rfl⟩ := List.mem_map.mp this
    exact ⟨p, (hmem p).mp hp, rfl⟩
  · unfold Logical.rowMajor
    rw [List.pairwise_map]
    exact pairwise_rowMajorPositions R.val s.shape

/-- Witness of C3 at the permuted index of shape `[2, 3]`: its logical
strides `[3, 1]` are dense row-major, its physical strides `[1, 2]` are not,
and `sequence` numbers the six positions `0, ..., 5`. -/
theorem StridedSeq.sequence_rowMajor_bijection_witness :
    IsDenseRowMajor permutedSeq.shape permutedSeq.logicalStrides ∧
    (Logical.rowMajor permutedSeq.shape).map permutedSeq.sequence
      = List.range (∏ i, permutedSeq.shape i) :=
  have hc : ∏ i, permutedSeq.shape i < 2 ^ 32 := by
    simp [Rank.val, Fin.prod_univ_succ]
    decide
  have hd : IsDenseRowMajor permutedSeq.shape permutedSeq.logicalStrides := by decide
  ⟨hd, (StridedSeq.sequence_rowMajor_bijection Rank.two permutedSeq hc hd).2.2.2⟩

/-- C4: for a dense rank-1 descriptor with shape `[n]`, `n >= 1`, strides
`[st]`, `count = n` and `spanCount = (n - 1) * st + 1`, all below `2 ^ 32`,
both `Flat(tensor)` and `Strided<1>(tensor)` are constructed, and at every
position with `p[0] < n` both are in bounds and return the same offset. -/
theorem Flat.linear_eq_Strided_linear_of_dense (t : TensorDescriptor) (n st : Nat)
    (hshape : t.shape = [n]) (hstrides : t.strides = [st])
    (hn : 1 ≤ n) (hn32 : n < 2 ^ 32) (hst32 : st < 2 ^ 32)
    (hcount : t.count = n) (hspan : t.spanCount = (n - 1) * st + 1)
    (hdense : t.isDense = true) :
    ∃ (f : Flat) (s : Strided Rank.one),
      Flat.init t = some f ∧ Strided.init Rank.one t = some s ∧
      ∀ p : Logical Rank.one, p.get ⟨0, by decide⟩ < n →
        f.isInBounds p = true ∧ s.isInBounds p = true ∧ f.linear p = s.linear p := by
  have hd : t.count = t.spanCount := by simpa [TensorDescriptor.isDense] using hdense
  have hlen : Rank.one.val ≤ t.shape.length ∧ Rank.one.val ≤ t.strides.length := by
    simp [hshape, hstrides, Rank.val]
  have hassert : ∀ i : Fin Rank.one.val,
      t.shape.get ⟨i.val, lt_of_lt_of_le i.isLt hlen.1⟩ ≤ UINT32_MAX ∧
      t.strides.get ⟨i.val, lt_of_lt_of_le i.isLt hlen.2⟩ ≤ UINT32_MAX := by
    intro i
    have hi : i.val = 0 := by have := i.isLt; simp only [Rank.val] at this; omega
    rw [listGet_eq_getD, listGet_eq_getD, hshape, hstrides, hi]
    simp only [List.getD_cons_zero, UINT32_MAX]
    omega
  have hsinit : ∃ s, Strided.init Rank.one t = some s := by
    unfold Strided.init
    rw [dif_pos hlen, if_pos hassert]
    exact ⟨_, rfl⟩
  obtain ⟨s, hs⟩ := hsinit
  have hfinit : Flat.init t = some { count := u32 t.count } := by
    unfold Flat.init
    rw [if_pos hd]
  refine ⟨_, s, hfinit, hs, fun p hp => ?_⟩
  obtain ⟨_, hsh, hstr⟩ := Strided.init_stores_exact hs
  have h0 : s.shape ⟨0, by decide⟩ = n := by
    have := (hsh ⟨0, by decide⟩).1
    simpa [hshape] using this
  have h1 : s.strides ⟨0, by decide⟩ = st := by
    have := (hstr ⟨0, by decide⟩).1
    simpa [hstrides] using this
  have hcase : n = 1 ∨ st = 1 := by
    have e : (n - 1) * st = (n - 1) * 1 := by omega
    rcases Nat.eq_zero_or_pos (n - 1) with hz | hpos
    · left; omega
    · right; exact Nat.eq_of_mul_eq_mul_left hpos e
  refine ⟨?_, ?_, ?_⟩
  · simp only [Flat.isInBounds, decide_eq_true_eq, u32, hcount]
    omega
  · rw [s.isInBounds_iff]
    intro i
    have hi : i = ⟨0, by decide⟩ := by
      apply Fin.ext
      have := i.isLt
      simp only [Rank.val] at this
      simp only
      omega
    rw [hi, h0]
    exact hp
  · rw [s.linear_rank_one p, h1]
    simp only [Flat.linear]
    rcases hcase with h | h
    · have : p.get ⟨0, by decide⟩ = 0 := by omega
      rw [this, Nat.zero_mul, Nat.zero_mod]
    · subst h
      rw [Nat.mul_one]
      exact (Nat.mod_eq_of_lt (by omega)).symm

/-- Witness of C4 at the dense rank-1 descriptor with five elements. -/
theorem Flat.linear_eq_Strided_linear_of_dense_witness :
    denseDesc1.isDense = true ∧
    ∃ (f : Flat) (s : Strided Rank.one),
      Flat.init denseDesc1 = some f ∧ Strided.init Rank.one denseDesc1 = some s ∧
      ∀ p : Logical Rank.one, p.get ⟨0, by decide⟩ < 5 →
        f.isInBounds p = true ∧ s.isInBounds p = true ∧ f.linear p = s.linear p :=
  ⟨by decide,
    Flat.linear_eq_Strided_linear_of_dense denseDesc1 5 1 rfl rfl (by decide) (by decide)
      (by decide) rfl rfl (by decide)⟩

/-- C5: `Single.linear(p)` is `0` for every descriptor and position; and for
every rank, a `Strided` index whose spanned storage
`1 + sum of (shape[i] - 1) * strides[i]` is one element returns offset `0` at
every in-bounds position, so it agrees with `Single` there. -/
theorem Strided.linear_eq_zero_of_single_span (R : Rank) (s : Strided R)
    (hspan : 1 + ∑ i, (s.shape i - 1) * s.strides i = 1) :
    (∀ (t : TensorDescriptor) (q : Logical Rank.one), (Single.init t).linear q = 0) ∧
    (∀ p : Logical R, s.isInBounds p = true → s.linear p = 0) ∧
    (∀ (t : TensorDescriptor) (p : Logical R) (q : Logical Rank.one),
      s.isInBounds p = true → s.linear p = (Single.init t).linear q) := by
  have hsum : ∑ i, (s.shape i - 1) * s.strides i = 0 := by omega
  have hterm : ∀ i, (s.shape i - 1) * s.strides i = 0 := fun i =>
    (Finset.sum_eq_zero_iff.mp hsum) i (Finset.mem_univ i)
  have hlin : ∀ p : Logical R, s.isInBounds p = true → s.linear p = 0 := by
    intro p hp
    have hb := (s.isInBounds_iff p).mp hp
    have hz : ∑ i, p.get i * s.strides i = 0 := by
      apply Finset.sum_eq_zero
      intro i _
      rcases Nat.mul_eq_zero.mp (hterm i) with h | h
      · have : p.get i = 0 := by have := hb i; omega
        rw [this, Nat.zero_mul]
      · rw [h, Nat.mul_zero]
    rw [s.linear_eq_sum p, hz, Nat.zero_mod]
  exact ⟨fun _ _ => rfl, hlin, fun _ p _ hp => hlin p hp⟩

/-- Witness of C5 at shape `[1, 3]` with strides `[7, 0]`: the span is one
element and the in-bounds position `[0, 2]` has offset `0`. -/
theorem Strided.linear_eq_zero_of_single_span_witness :
    (1 + ∑ i, (scalarStrided.shape i - 1) * scalarStrided.strides i = 1) ∧
    scalarStrided.isInBounds ⟨![0, 2]⟩ = true ∧
    scalarStrided.linear ⟨![0, 2]⟩ = 0 :=
  have h : 1 + ∑ i, (scalarStrided.shape i - 1) * scalarStrided.strides i = 1 := by
    simp [scalarStrided, Rank.val, Fin.sum_univ_succ]
  ⟨h, by decide,
    (Strided.linear_eq_zero_of_single_span Rank.two scalarStrided h).2.1 ⟨![0, 2]⟩ (by decide)⟩

/-- C6: for every rank and every `Strided` index with `strides[k] = 0`, two
positions that differ only in component `k` have the same offset; and with
shape `[2, 3]` and strides `[0, 1]` the positions `[0, 2]` and `[1, 2]` both
have offset `2`. -/
theorem Strided.linear_broadcast_axis (R : Rank) (s : Strided R) (k : Fin R.val)
    (hk : s.strides k = 0) (p q : Logical R)
    (hpq : ∀ i, i ≠ k → p.get i = q.get i) :
    s.linear p = s.linear q ∧
    ((Strided.mk 6 ![2, 3] ![0, 1] : Strided Rank.two).linear ⟨![0, 2]⟩ = 2 ∧
     (Strided.mk 6 ![2, 3] ![0, 1] : Strided Rank.two).linear ⟨![1, 2]⟩ = 2) := by
  refine ⟨?_, by decide, by decide⟩
  rw [s.linear_eq_sum p, s.linear_eq_sum q]
  congr 1
  apply Finset.sum_congr rfl
  intro i _
  by_cases hik : i = k
  · rw [hik, hk, Nat.mul_zero, Nat.mul_zero]
  · rw [hpq i hik]

/-- Witness of C6, the scenario of the specification: with shape `[2, 3]`
and strides `[0, 1]` the positions `[0, 2]` and `[1, 2]` both have offset
`2`. -/
theorem Strided.linear_broadcast_axis_witness :
    broadcastStrided.strides ⟨0, by decide⟩ = 0 ∧
    broadcastStrided.linear ⟨![0, 2]⟩ = broadcastStrided.linear ⟨![1, 2]⟩ ∧
    broadcastStrided.linear ⟨![1, 2]⟩ = 2 :=
  ⟨by decide,
    (Strided.linear_broadcast_axis Rank.two broadcastStrided ⟨0, by decide⟩ (by decide)
      ⟨![0, 2]⟩ ⟨![1, 2]⟩ (by decide)).1,
    by decide⟩

/-- C7: for every rank, two `StridedSeq` indexes built from descriptors with
the same shape, each carrying the dense row-major logical strides of that
shape, return the same `sequence(p)` at every position, whatever the
strides, count and spanCount of the two descriptors are. -/
theorem StridedSeq.sequence_independent_of_strides (R : Rank) (t₁ t₂ : TensorDescriptor)
    (s₁ s₂ : StridedSeq R)
    (h₁ : StridedSeq.init R t₁ = some s₁) (h₂ : StridedSeq.init R t₂ = some s₂)
    (hshape : t₁.shape = t₂.shape)
    (hdense₁ : t₁.logicalStrides = denseRowMajorStrides t₁.shape)
    (hdense₂ : t₂.logicalStrides = denseRowMajorStrides t₂.shape) :
    ∀ p : Logical R, s₁.sequence p = s₂.sequence p := by
  intro p
  have e₁ := (StridedSeq.init_stores_logicalStrides h₁).2
  have e₂ := (StridedSeq.init_stores_logicalStrides h₂).2
  have hls : t₁.logicalStrides = t₂.logicalStrides := by rw [hdense₁, hdense₂, hshape]
  rw [s₁.sequence_eq_sum p, s₂.sequence_eq_sum p]
  congr 1
  apply Finset.sum_congr rfl
  intro i _
  rw [e₁ i, e₂ i, hls]

/-- Witness of C7: the permuted and the dense descriptor of shape `[2, 3]`
have different strides and the same `sequence`. -/
theorem StridedSeq.sequence_independent_of_strides_witness :
    permutedDesc.shape = denseDesc.shape ∧ permutedDesc.strides ≠ denseDesc.strides ∧
    ∀ p : Logical Rank.two, permutedSeq.sequence p = denseSeq.sequence p :=
  ⟨by decide, by decide,
    StridedSeq.sequence_independent_of_strides Rank.two permutedDesc denseDesc
      permutedSeq denseSeq (Option.some_get _).symm (Option.some_get _).symm
      (by decide) (by decide) (by decide)⟩

/-- C8, counterexample: for the permuted descriptor of shape `[2, 3]` with
strides `[1, 2]` and logical strides `[3, 1]`, the in-bounds position
`[1, 0]` has `sequence = 3` and `linear = 1`; a value `7` stored at the
sequence offset of a zeroed buffer is not what is loaded at the linear
offset. -/
theorem StridedSeq.roundTrip_counterexample :
    StridedSeq.init Rank.two permutedDesc = some permutedSeq ∧
    permutedSeq.isInBounds ⟨![1, 0]⟩ = true ∧
    permutedSeq.sequence ⟨![1, 0]⟩ = 3 ∧
    permutedSeq.linear ⟨![1, 0]⟩ = 1 ∧
    permutedSeq.roundTrip ⟨![1, 0]⟩ (fun _ => (0 : Int)) 7 ≠ 7 :=
  ⟨(Option.some_get _).symm, by decide, by decide, by decide, by decide⟩

/-- C8, amended: for every rank, every `StridedSeq` index and every
position, the round trip (store at `sequence(p)`, load at `linear(p)`)
reproduces every stored value exactly when `sequence(p) = linear(p)`; this is
the case at every position when the physical strides equal the logical
strides. -/
theorem StridedSeq.roundTrip_iff (R : Rank) (s : StridedSeq R) (p : Logical R) :
    ((∀ (buf : Buffer Int) (value : Int), s.roundTrip p buf value = value) ↔
      s.sequence p = s.linear p) ∧
    ((∀ i, s.strides i = s.logicalStrides i) →
      ∀ (buf : Buffer Int) (value : Int), s.roundTrip p buf value = value) := by
  have hiff : (∀ (buf : Buffer Int) (value : Int), s.roundTrip p buf value = value) ↔
      s.sequence p = s.linear p := by
    constructor
    · intro h
      by_contra hne
      have := h (fun _ => 0) 1
      simp only [StridedSeq.roundTrip, Buffer.read, Buffer.write] at this
      rw [if_neg (fun e => hne e.symm)] at this
      exact absurd this (by decide)
    · intro h buf value
      simp [StridedSeq.roundTrip, Buffer.read, Buffer.write, h]
  refine ⟨hiff, fun hst buf value => hiff.mpr ?_ buf value⟩
  rw [s.sequence_eq_sum p, s.toStrided.linear_eq_sum p]
  congr 1
  apply Finset.sum_congr rfl
  intro i _
  rw [hst i]

/-! ## Claims about the logical position -/

/-- C9: with `g(d) = blockIdx.d * blockDim.d + threadIdx.d` in 32-bit
unsigned arithmetic, `Logical<1>` is `[g(x)]`, `Logical<2>` is `[g(y), g(x)]`
and `Logical<3>` is `[g(z), g(y), g(x)]`; for every rank the last axis is the
one taken from the grid dimension `x`. -/
theorem Logical.init_spec (blockIdx : uint3) (blockDim : dim3) (threadIdx : uint3) :
    (Logical.init Rank.one blockIdx blockDim threadIdx).get ⟨0, by decide⟩
      = (blockIdx.x * blockDim.x % 2 ^ 32 + threadIdx.x) % 2 ^ 32 ∧
    ((Logical.init Rank.two blockIdx blockDim threadIdx).get ⟨0, by decide⟩
      = (blockIdx.y * blockDim.y % 2 ^ 32 + threadIdx.y) % 2 ^ 32 ∧
     (Logical.init Rank.two blockIdx blockDim threadIdx).get ⟨1, by decide⟩
      = (blockIdx.x * blockDim.x % 2 ^ 32 + threadIdx.x) % 2 ^ 32) ∧
    ((Logical.init Rank.three blockIdx blockDim threadIdx).get ⟨0, by decide⟩
      = (blockIdx.z * blockDim.z % 2 ^ 32 + threadIdx.z) % 2 ^ 32 ∧
     (Logical.init Rank.three blockIdx blockDim threadIdx).get ⟨1, by decide⟩
      = (blockIdx.y * blockDim.y % 2 ^ 32 + threadIdx.y) % 2 ^ 32 ∧
     (Logical.init Rank.three blockIdx blockDim threadIdx).get ⟨2, by decide⟩
      = (blockIdx.x * blockDim.x % 2 ^ 32 + threadIdx.x) % 2 ^ 32) ∧
    (∀ R : Rank, (Logical.init R blockIdx blockDim threadIdx).get R.last
      = (blockIdx.x * blockDim.x % 2 ^ 32 + threadIdx.x) % 2 ^ 32) := by
  refine ⟨rfl, ⟨rfl, rfl⟩, ⟨rfl, rfl, rfl⟩, fun R => ?_⟩
  cases R <;> rfl

/-- C10, counterexample: for rank 2, block index `(1, 0, 0)`, block extent
`(4, 4, 1)` and thread index `(2, 3, 0)`, component `0` of the logical
position is `3` (the grid `y` coordinate) while
`blockIdx.x * blockDim.x + threadIdx.x` is `6`. -/
theorem Logical.axis_zero_counterexample :
    (Logical.init Rank.two ⟨1, 0, 0⟩ ⟨4, 4, 1⟩ ⟨2, 3, 0⟩).get ⟨0, by decide⟩ = 3 ∧
    (1 * 4 % 2 ^ 32 + 2) % 2 ^ 32 = 6 ∧
    (Logical.init Rank.two ⟨1, 0, 0⟩ ⟨4, 4, 1⟩ ⟨2, 3, 0⟩).get ⟨0, by decide⟩
      ≠ (1 * 4 % 2 ^ 32 + 2) % 2 ^ 32 := by
  decide

/-- C10, amended: for every rank the last axis `R - 1` of the logical
position is the grid `x` coordinate `blockIdx.x * blockDim.x + threadIdx.x`;
component `0` is that coordinate for rank 1, the grid `y` coordinate for
rank 2 and the grid `z` coordinate for rank 3. -/
theorem Logical.last_axis_is_grid_x (R : Rank) (blockIdx : uint3) (blockDim : dim3)
    (threadIdx : uint3) :
    (Logical.init R blockIdx blockDim threadIdx).get R.last
      = (blockIdx.x * blockDim.x % 2 ^ 32 + threadIdx.x) % 2 ^ 32 ∧
    (Logical.init Rank.one blockIdx blockDim threadIdx).get ⟨0, by decide⟩
      = (blockIdx.x * blockDim.x % 2 ^ 32 + threadIdx.x) % 2 ^ 32 ∧
    (Logical.init Rank.two blockIdx blockDim threadIdx).get ⟨0, by decide⟩
      = (blockIdx.y * blockDim.y % 2 ^ 32 + threadIdx.y) % 2 ^ 32 ∧
    (Logical.init Rank.three blockIdx blockDim threadIdx).get ⟨0, by decide⟩
      = (blockIdx.z * blockDim.z % 2 ^ 32 + threadIdx.z) % 2 ^ 32 := by
  refine ⟨?_, rfl, rfl, rfl⟩
  cases R <;> rfl

/-! ## Counting positions and spans -/

/-- The row-major enumeration has one entry per element of the shape. -/
theorem length_rowMajorPositions : ∀ (n : Nat) (shape : Fin n → Nat),
    (rowMajorPositions n shape).length = ∏ i, shape i := by
  intro n
  induction n with
  | zero => intro shape; simp [rowMajorPositions]
  | succ n ih =>
    intro shape
    have hconst : (List.length ∘ fun i : Nat =>
        List.map (fun q => (Fin.cons i q : Fin (n + 1) → Nat))
          (rowMajorPositions n (Fin.tail shape)))
        = fun _ => ∏ i, Fin.tail shape i := by
      funext i
      simp only [Function.comp, List.length_map, ih]
    simp only [rowMajorPositions, List.length_flatMap]
    rw [hconst, Fin.prod_univ_succ, List.map_const', List.sum_replicate, List.length_range]
    rfl

/-- The number of logical positions of a shape is the product of its
extents. -/
theorem Logical.length_rowMajor {R : Rank} (shape : Fin R.val → Nat) :
    (Logical.rowMajor shape).length = ∏ i, shape i := by
  unfold Logical.rowMajor
  rw [List.length_map, length_rowMajorPositions]

/-- The row-major list of logical positions has no repetition. -/
theorem Logical.nodup_rowMajor {R : Rank} (shape : Fin R.val → Nat) :
    (Logical.rowMajor shape).Nodup := by
  unfold Logical.rowMajor
  unfold List.Nodup
  rw [List.pairwise_map]
  refine (pairwise_rowMajorPositions R.val shape).imp ?_
  rintro p q ⟨k, _, hlt⟩ heq
  have : p k = q k := congrFun (congrArg Logical.position heq) k
  omega

/-- At an in-bounds position the exact weighted sum is at most the largest
offset of the span. -/
theorem Strided.sum_le_span {R : Rank} (s : Strided R) (p : Logical R)
    (hp : s.isInBounds p = true) :
    ∑ i, p.get i * s.strides i ≤ ∑ i, (s.shape i - 1) * s.strides i := by
  have hb := (s.isInBounds_iff p).mp hp
  apply Finset.sum_le_sum
  intro i _
  exact Nat.mul_le_mul_right _ (by have := hb i; omega)

/-- When the span fits 32 bits, `linear` is a bijection from the in-bounds
positions onto the offsets of the span exactly when the element count equals
the span and `linear` is injective on the in-bounds positions. -/
theorem Strided.bijOn_linear_iff {R : Rank} (s : Strided R) (count spanCount : Nat)
    (hcount : count = ∏ i, s.shape i)
    (hspan : spanCount = 1 + ∑ i, (s.shape i - 1) * s.strides i)
    (h32 : spanCount < 2 ^ 32) :
    Set.BijOn s.linear {p | s.isInBounds p = true} {k | k < spanCount} ↔
      (count = spanCount ∧ Set.InjOn s.linear {p | s.isInBounds p = true}) := by
  classical
  have hmem : ∀ p, p ∈ Logical.rowMajor s.shape ↔ s.isInBounds p = true := fun p => by
    rw [Logical.mem_rowMajor, s.isInBounds_iff]
  have hlt : ∀ p, s.isInBounds p = true → s.linear p < spanCount := by
    intro p hp
    have h1 := s.sum_le_span p hp
    rw [s.linear_eq_sum p]
    have : ∑ i, p.get i * s.strides i < 2 ^ 32 := by omega
    rw [Nat.mod_eq_of_lt this]
    omega
  have hsub : ((Logical.rowMajor s.shape).map s.linear).toFinset ⊆ Finset.range spanCount := by
    intro k hk
    rw [List.mem_toFinset, List.mem_map] at hk
    obtain ⟨p, hp, rfl⟩ := hk
    exact Finset.mem_range.mpr (hlt p ((hmem p).mp hp))
  have hcard : ∀ (_ : Set.InjOn s.linear {p | s.isInBounds p = true}),
      ((Logical.rowMajor s.shape).map s.linear).toFinset.card = count := by
    intro hinj
    have hnd : ((Logical.rowMajor s.shape).map s.linear).Nodup := by
      refine List.Nodup.map_on ?_ (Logical.nodup_rowMajor s.shape)
      intro p hp q hq h
      exact hinj ((hmem p).mp hp) ((hmem q).mp hq) h
    rw [List.toFinset_card_of_nodup hnd, List.length_map, Logical.length_rowMajor, hcount]
  constructor
  · intro hbij
    refine ⟨?_, hbij.injOn⟩
    have hc := hcard hbij.injOn
    have hfull : Finset.range spanCount ⊆ ((Logical.rowMajor s.shape).map s.linear).toFinset := by
      intro k hk
      obtain ⟨p, hp, rfl⟩ := hbij.surjOn (Finset.mem_range.mp hk)
      rw [List.mem_toFinset]
      exact List.mem_map_of_mem _ ((hmem p).mpr hp)
    have := Finset.Subset.antisymm hsub hfull
    rw [this, Finset.card_range] at hc
    exact hc.symm
  · rintro ⟨hd, hinj⟩
    refine ⟨fun p hp => hlt p hp, hinj, ?_⟩
    have hc := hcard hinj
    have heq : ((Logical.rowMajor s.shape).map s.linear).toFinset = Finset.range spanCount := by
      apply Finset.eq_of_subset_of_card_le hsub
      rw [hc, Finset.card_range, hd]
    intro k hk
    have : k ∈ ((Logical.rowMajor s.shape).map s.linear).toFinset := by
      rw [heq]; exact Finset.mem_range.mpr hk
    rw [List.mem_toFinset, List.mem_map] at this
    obtain ⟨p, hp, rfl⟩ := this
    exact ⟨p, (hmem p).mp hp, rfl⟩

/-- When the whole sum fits 32 bits, the accumulator of the loop
`index += f(i)` after `k` iterations is the exact sum of the first `k`
terms. -/
theorem sumLoop_partial_exact (R : Rank) (f : Fin R.val → Nat) (h : ∑ i, f i < 2 ^ 32)
    (k : Nat) :
    forLoop R.val (fun i index => u32 (index + u32 (f i))) k 0 0
      = ∑ i ∈ Finset.univ.filter (fun i : Fin R.val => i.val < k), f i := by
  cases R
  all_goals simp [Rank.val, Fin.sum_univ_succ] at h
  all_goals rcases k with _ | _ | _ | _ | k
  all_goals simp [forLoop, Rank.val, Finset.sum_filter, Fin.sum_univ_succ, u32]
  all_goals omega

/-- Within one grid dimension, a thread index below the block extent and a
coordinate that fits 32 bits determine the block index and thread index. -/
theorem gridCoord_injective (D b₁ t₁ b₂ t₂ : Nat) (h₁ : t₁ < D) (h₂ : t₂ < D)
    (n₁ : b₁ * D + t₁ ≤ 2 ^ 32 - 1) (n₂ : b₂ * D + t₂ ≤ 2 ^ 32 - 1)
    (h : gridCoord b₁ D t₁ = gridCoord b₂ D t₂) : b₁ = b₂ ∧ t₁ = t₂ := by
  have e : b₁ * D + t₁ = b₂ * D + t₂ := by
    simp only [gridCoord, u32] at h
    omega
  have hD : 0 < D := by omega
  have hb : b₁ = b₂ := by
    have := congrArg (fun x => x / D) e
    simp only at this
    rw [Nat.add_comm, Nat.add_mul_div_right _ _ hD, Nat.div_eq_of_lt h₁, Nat.add_comm (b₂ * D),
      Nat.add_mul_div_right _ _ hD, Nat.div_eq_of_lt h₂] at this
    omega
  subst hb
  exact ⟨rfl, by omega⟩

/-! ## Claims about density, constructors and bounds -/

/-- C11, counterexample: the descriptor of shape `[2, 2]` with strides
`[0, 3]` has `count = product(shape) = 4` and
`spanCount = 1 + sum of (shape[i]-1)*strides[i] = 4`, so `isDense()` holds,
but the in-bounds positions `[0, 0]` and `[1, 0]` both have offset `0`:
`linear` is not one-to-one onto the offsets below `spanCount`. -/
theorem TensorDescriptor.isDense_overlap_counterexample :
    Strided.init Rank.two overlapDesc = some overlapStrided ∧
    overlapDesc.count = ∏ i : Fin 2, overlapDesc.shape.getD i.val 0 ∧
    overlapDesc.spanCount
      = 1 + ∑ i : Fin 2, (overlapDesc.shape.getD i.val 0 - 1) * overlapDesc.strides.getD i.val 0 ∧
    overlapDesc.isDense = true ∧
    overlapStrided.isInBounds ⟨![0, 0]⟩ = true ∧
    overlapStrided.isInBounds ⟨![1, 0]⟩ = true ∧
    overlapStrided.linear ⟨![0, 0]⟩ = 0 ∧
    overlapStrided.linear ⟨![1, 0]⟩ = 0 ∧
    ¬ Set.BijOn overlapStrided.linear {p | overlapStrided.isInBounds p = true}
        {k | k < overlapDesc.spanCount} := by
  refine ⟨(Option.some_get _).symm, by decide, by decide, by decide, by decide, by decide,
    by decide, by decide, fun hbij => ?_⟩
  have hp : overlapStrided.isInBounds ⟨![0, 0]⟩ = true := by decide
  have hq : overlapStrided.isInBounds ⟨![1, 0]⟩ = true := by decide
  have heq : overlapStrided.linear ⟨![0, 0]⟩ = overlapStrided.linear ⟨![1, 0]⟩ := by decide
  have h := hbij.injOn hp hq heq
  have h0 := congrArg (fun p : Logical Rank.two => p.get ⟨0, by decide⟩) h
  exact absurd h0 (by decide)

/-- C11, amended: for every rank and every descriptor with
`count = product(shape)` and
`spanCount = 1 + sum of (shape[i]-1)*strides[i]` below `2 ^ 32`, the index
`Strided<R>(tensor)` maps the in-bounds positions one-to-one onto the
offsets below `spanCount` if and only if `isDense()` holds and `linear` is
injective on the in-bounds positions; for rank 1 `isDense()` alone is
equivalent to it. -/
theorem TensorDescriptor.bijOn_linear_iff_isDense_and_injOn (R : Rank) (t : TensorDescriptor)
    (s : Strided R) (hs : Strided.init R t = some s)
    (hcount : t.count = ∏ i : Fin R.val, t.shape.getD i.val 0)
    (hspan : t.spanCount
      = 1 + ∑ i : Fin R.val, (t.shape.getD i.val 0 - 1) * t.strides.getD i.val 0)
    (h32 : t.spanCount < 2 ^ 32) :
    (Set.BijOn s.linear {p | s.isInBounds p = true} {k | k < t.spanCount} ↔
      (t.isDense = true ∧ Set.InjOn s.linear {p | s.isInBounds p = true})) ∧
    (R = Rank.one →
      (t.isDense = true ↔
        Set.BijOn s.linear {p | s.isInBounds p = true} {k | k < t.spanCount})) := by
  obtain ⟨_, hsh, hst⟩ := Strided.init_stores_exact hs
  have hcount2 : t.count = ∏ i, s.shape i := by
    rw [hcount]
    exact Finset.prod_congr rfl (fun i _ => ((hsh i).1).symm)
  have hspan2 : t.spanCount = 1 + ∑ i, (s.shape i - 1) * s.strides i := by
    rw [hspan]
    congr 1
    exact Finset.sum_congr rfl (fun i _ => by rw [(hsh i).1, (hst i).1])
  have hdense : t.isDense = true ↔ t.count = t.spanCount := by
    simp [TensorDescriptor.isDense]
  have key := s.bijOn_linear_iff t.count t.spanCount hcount2 hspan2 h32
  refine ⟨by rw [hdense]; exact key, fun hR => ?_⟩
  subst hR
  rw [key, hdense]
  constructor
  · intro hd
    refine ⟨hd, ?_⟩
    have e0 : t.count = s.shape ⟨0, by decide⟩ := by
      rw [hcount2]; simp [Rank.val]
    have e1 : t.spanCount = 1 + (s.shape ⟨0, by decide⟩ - 1) * s.strides ⟨0, by decide⟩ := by
      rw [hspan2]; simp [Rank.val]
    have hcase : s.shape ⟨0, by decide⟩ ≤ 1 ∨ s.strides ⟨0, by decide⟩ = 1 := by
      rcases Nat.lt_or_ge 1 (s.shape ⟨0, by decide⟩) with hgt | hle
      · right
        have e : (s.shape ⟨0, by decide⟩ - 1) * s.strides ⟨0, by decide⟩
            = (s.shape ⟨0, by decide⟩ - 1) * 1 := by omega
        exact Nat.eq_of_mul_eq_mul_left (by omega) e
      · left; exact hle
    intro p hp q hq hpq
    have hbp := (s.isInBounds_iff p).mp hp ⟨0, by decide⟩
    have hbq := (s.isInBounds_iff q).mp hq ⟨0, by decide⟩
    rw [s.linear_rank_one p, s.linear_rank_one q] at hpq
    have h0 : p.get ⟨0, by decide⟩ = q.get ⟨0, by decide⟩ := by
      rcases hcase with h | h
      · omega
      · rw [h, Nat.mul_one, Nat.mul_one] at hpq
        omega
    cases p with
    | mk pp =>
      cases q with
      | mk qq =>
        congr 1
        funext i
        have hi : i = ⟨0, by decide⟩ := by
          apply Fin.ext
          have := i.isLt
          simp only [Rank.val] at this
          simp only
          omega
        rw [hi]
        exact h0
  · intro h
    exact h.1

/-- Witness of C11 (amended) at the dense row-major descriptor of shape
`[2, 3]`. -/
theorem TensorDescriptor.bijOn_linear_iff_isDense_and_injOn_witness :
    denseDesc.spanCount < 2 ^ 32 ∧
    (Set.BijOn denseSeq.toStrided.linear {p | denseSeq.toStrided.isInBounds p = true}
      {k | k < denseDesc.spanCount} ↔
      (denseDesc.isDense = true ∧
        Set.InjOn denseSeq.toStrided.linear {p | denseSeq.toStrided.isInBounds p = true})) :=
  have hs : Strided.init Rank.two denseDesc = some denseSeq.toStrided :=
    (StridedSeq.init_stores_logicalStrides (Option.some_get _).symm).1
  ⟨by decide,
    (TensorDescriptor.bijOn_linear_iff_isDense_and_injOn Rank.two denseDesc
      denseSeq.toStrided hs (by simp [denseDesc, Rank.val, Fin.prod_univ_succ])
      (by simp [denseDesc, Rank.val, Fin.sum_univ_succ]) (by decide)).1⟩

/-- C12: for every rank and every descriptor whose shape and strides arrays
have at least `Rank` entries, constructing `Strided<Rank>` passes its
assertion exactly when every `shape[i]` and `strides[i]` with `i < Rank` is at
most `UINT32_MAX`; and when it passes, the stored `shape[i]` and `strides[i]`
are the values of the descriptor, untruncated. -/
theorem Strided.init_passes_iff (R : Rank) (t : TensorDescriptor)
    (hlen : R.val ≤ t.shape.length ∧ R.val ≤ t.strides.length) :
    ((Strided.init R t).isSome = true ↔
      ∀ i : Fin R.val, t.shape.getD i.val 0 ≤ UINT32_MAX ∧ t.strides.getD i.val 0 ≤ UINT32_MAX) ∧
    (∀ s : Strided R, Strided.init R t = some s →
      ∀ i : Fin R.val, s.shape i = t.shape.getD i.val 0 ∧ s.strides i = t.strides.getD i.val 0) := by
  constructor
  · constructor
    · intro h
      obtain ⟨s, hs⟩ := Option.isSome_iff_exists.mp h
      obtain ⟨_, hsh, hst⟩ := Strided.init_stores_exact hs
      exact fun i => ⟨(hsh i).2.1, (hst i).2.1⟩
    · intro h
      have hassert : ∀ i : Fin R.val,
          t.shape.get ⟨i.val, lt_of_lt_of_le i.isLt hlen.1⟩ ≤ UINT32_MAX ∧
          t.strides.get ⟨i.val, lt_of_lt_of_le i.isLt hlen.2⟩ ≤ UINT32_MAX := by
        intro i
        rw [listGet_eq_getD, listGet_eq_getD]
        exact h i
      unfold Strided.init
      rw [dif_pos hlen, if_pos hassert]
      rfl
  · intro s hs i
    obtain ⟨_, hsh, hst⟩ := Strided.init_stores_exact hs
    exact ⟨(hsh i).1, (hst i).1⟩

/-- Witness of C12 at the dense row-major descriptor of shape `[2, 3]`. -/
theorem Strided.init_passes_iff_witness :
    (Strided.init Rank.two denseDesc).isSome = true ∧
    (∀ s : Strided Rank.two, Strided.init Rank.two denseDesc = some s →
      ∀ i : Fin Rank.two.val,
        s.shape i = denseDesc.shape.getD i.val 0 ∧ s.strides i = denseDesc.strides.getD i.val 0) :=
  have h := Strided.init_passes_iff Rank.two denseDesc (by decide)
  ⟨h.1.mpr (by decide), h.2⟩

/-- C13, the code at the failing input: the descriptor of shape
`[2, 65536, 65536]` carries its dense row-major logical strides, of which
`logicalStrides[0] = 2^32` exceeds `UINT32_MAX`; `StridedSeq<3>(tensor)`
passes every assertion and stores `logicalStrides[0] = 0`, so the in-bounds
positions `[1, 0, 0]` and `[0, 0, 0]` both get the sequence index `0`.  In
general a constructed `StridedSeq` stores every logical stride modulo
`2 ^ 32`. -/
theorem StridedSeq.init_truncates_logicalStrides :
    (∀ (R : Rank) (t : TensorDescriptor) (s : StridedSeq R),
      StridedSeq.init R t = some s →
      ∀ i : Fin R.val, s.logicalStrides i = t.logicalStrides.getD i.val 0 % 2 ^ 32) ∧
    truncDesc.logicalStrides = denseRowMajorStrides truncDesc.shape ∧
    UINT32_MAX < truncDesc.logicalStrides.getD 0 0 ∧
    StridedSeq.init Rank.three truncDesc = some truncSeq ∧
    truncSeq.logicalStrides ⟨0, by decide⟩ = 0 ∧
    truncSeq.isInBounds ⟨![1, 0, 0]⟩ = true ∧
    truncSeq.sequence ⟨![1, 0, 0]⟩ = 0 ∧
    truncSeq.sequence ⟨![0, 0, 0]⟩ = 0 :=
  ⟨fun _ _ _ h i => (StridedSeq.init_stores_logicalStrides h).2 i,
    by decide, by decide, (Option.some_get _).symm, by decide, by decide, by decide,
    by decide⟩

/-- C14, the code at the failing input: the dense rank-1 descriptor with
`count = spanCount = 2^32 + 5` passes the assertion of `Flat(tensor)`, the
stored `count` is `5`, and the position `[10]`, which is below the count of
the descriptor, is reported out of bounds.  In general `Flat(tensor)` passes
its assertion exactly when the descriptor is dense, and `isInBounds`
compares `p[0]` with the count of the descriptor modulo `2 ^ 32`. -/
theorem Flat.init_truncates_count :
    (∀ t : TensorDescriptor, (Flat.init t).isSome = true ↔ t.isDense = true) ∧
    (∀ (t : TensorDescriptor) (f : Flat) (p : Logical Rank.one), Flat.init t = some f →
      (f.isInBounds p = true ↔ p.get ⟨0, by decide⟩ < t.count % 2 ^ 32)) ∧
    hugeDesc.isDense = true ∧
    (Flat.init hugeDesc).map (fun f => f.count) = some 5 ∧
    (10 : Nat) < hugeDesc.count ∧
    (Flat.init hugeDesc).map (fun f => f.isInBounds ⟨![10]⟩) = some false := by
  refine ⟨fun t => ?_, fun t f p h => ?_, by decide, by decide, by decide, by decide⟩
  · unfold Flat.init TensorDescriptor.isDense
    by_cases hd : t.count = t.spanCount
    · simp [hd]
    · simp [hd]
  · have hc := (Flat.init_checks_dense h).2
    simp only [Flat.isInBounds, decide_eq_true_eq, hc, u32]
    norm_num

/-- C15, counterexample: the rank-1 descriptor of shape `[5]` broadcasting
one stored element has `spanCount == 1`; the position `[3]` is within the
shape, yet `Single::isInBounds` returns false. -/
theorem Single.isInBounds_counterexample :
    broadcastScalarDesc.isSingle = true ∧
    broadcastScalarDesc.shape = [5] ∧
    (3 : Nat) < 5 ∧
    (Single.init broadcastScalarDesc).isInBounds ⟨![3]⟩ = false := by
  decide

/-- C15, amended: for a `Single` index built from any descriptor,
`isInBounds(p)` is true exactly when `p[0] = 0`; so for a shape `[n]` it is
the boundary law `p[0] < n` when `n = 1`, and for `n >= 1` it is false at
every position with `p[0] >= n`. -/
theorem Single.isInBounds_iff_zero (t : TensorDescriptor) (n : Nat) (p : Logical Rank.one) :
    ((Single.init t).isInBounds p = true ↔ p.get ⟨0, by decide⟩ = 0) ∧
    (n = 1 → ((Single.init t).isInBounds p = true ↔ p.get ⟨0, by decide⟩ < n)) ∧
    (1 ≤ n → n ≤ p.get ⟨0, by decide⟩ → (Single.init t).isInBounds p = false) := by
  have key : (Single.init t).isInBounds p = true ↔ p.get ⟨0, by decide⟩ = 0 := by
    simp [Single.isInBounds]
  refine ⟨key, fun hn => ?_, fun h1 h2 => ?_⟩
  · rw [key, hn]; omega
  · cases hb : (Single.init t).isInBounds p
    · rfl
    · have := key.mp hb; omega

/-- C16: for every descriptor, `isDense()` is true exactly when
`count == spanCount`, `isStrided()` is its negation (exactly one of the two
holds), `isSingle()` is true exactly when `spanCount == 1`, and none of the
three changes when type, rank, order, shape, strides or logicalStrides
change. -/
theorem TensorDescriptor.predicates_spec (t : TensorDescriptor) :
    (t.isDense = true ↔ t.count = t.spanCount) ∧
    t.isStrided = !t.isDense ∧
    (t.isDense = true ∨ t.isStrided = true) ∧
    ¬ (t.isDense = true ∧ t.isStrided = true) ∧
    (t.isSingle = true ↔ t.spanCount = 1) ∧
    (∀ (type : Int) (rank order : Nat) (shape strides logicalStrides : List Nat),
      (TensorDescriptor.mk type rank order t.count t.spanCount shape strides
          logicalStrides).isDense = t.isDense ∧
      (TensorDescriptor.mk type rank order t.count t.spanCount shape strides
          logicalStrides).isStrided = t.isStrided ∧
      (TensorDescriptor.mk type rank order t.count t.spanCount shape strides
          logicalStrides).isSingle = t.isSingle) := by
  refine ⟨by simp [TensorDescriptor.isDense], rfl, ?_, ?_, by simp [TensorDescriptor.isSingle],
    fun _ _ _ _ _ _ => ⟨rfl, rfl, rfl⟩⟩
  · simp only [TensorDescriptor.isStrided]
    cases t.isDense <;> simp
  · simp only [TensorDescriptor.isStrided]
    cases t.isDense <;> simp

/-- C17: for every rank-1 position, every `Flat` index and every `Single`
index (whatever descriptor it was built from), `Flat.linear(p) = p[0]`,
`Flat.sequence(p) = p[0]` and `Single.sequence(p) = p[0]`; so the offset and
the sequence index of `Flat` coincide. -/
theorem Flat.linear_sequence_spec (t : TensorDescriptor) (f : Flat) (p : Logical Rank.one) :
    f.linear p = p.get ⟨0, by decide⟩ ∧
    f.sequence p = p.get ⟨0, by decide⟩ ∧
    (Single.init t).sequence p = p.get ⟨0, by decide⟩ ∧
    f.linear p = f.sequence p :=
  ⟨rfl, rfl, rfl, rfl⟩

/-- C19: for every rank and every `Strided` index whose largest offset
`M = sum of (shape[i]-1)*strides[i]` is below `2 ^ 32`, every in-bounds
position has `linear(p)` equal to the exact sum of `p[i]*strides[i]`, at most
`M`; every product is below `2 ^ 32`, and the accumulator of the loop after
any number `k` of iterations is the exact sum of the first `k` products,
below `2 ^ 32`. -/
theorem Strided.linear_within_span (R : Rank) (s : Strided R)
    (hM : ∑ i, (s.shape i - 1) * s.strides i < 2 ^ 32)
    (p : Logical R) (hp : s.isInBounds p = true) :
    s.linear p = ∑ i, p.get i * s.strides i ∧
    s.linear p ≤ ∑ i, (s.shape i - 1) * s.strides i ∧
    (∀ i, p.get i * s.strides i < 2 ^ 32) ∧
    (∀ k : Nat,
      forLoop R.val (fun i index => u32 (index + u32 (p.get i * s.strides i))) k 0 0
        = ∑ i ∈ Finset.univ.filter (fun i : Fin R.val => i.val < k), p.get i * s.strides i ∧
      ∑ i ∈ Finset.univ.filter (fun i : Fin R.val => i.val < k), p.get i * s.strides i
        < 2 ^ 32) := by
  have hle := s.sum_le_span p hp
  have hlt : ∑ i, p.get i * s.strides i < 2 ^ 32 := lt_of_le_of_lt hle hM
  have hlin : s.linear p = ∑ i, p.get i * s.strides i := by
    rw [s.linear_eq_sum p, Nat.mod_eq_of_lt hlt]
  refine ⟨hlin, by rw [hlin]; exact hle, fun i => ?_, fun k => ⟨?_, ?_⟩⟩
  · exact lt_of_le_of_lt
      (Finset.single_le_sum (f := fun i => p.get i * s.strides i)
        (fun _ _ => Nat.zero_le _) (Finset.mem_univ i)) hlt
  · exact sumLoop_partial_exact R (fun i => p.get i * s.strides i) hlt k
  · exact lt_of_le_of_lt
      (Finset.sum_le_sum_of_subset (Finset.filter_subset _ _)) hlt

/-- Witness of C19 at the dense row-major index of shape `[2, 3]` and the
in-bounds position `[1, 2]`. -/
theorem Strided.linear_within_span_witness :
    denseSeq.toStrided.isInBounds ⟨![1, 2]⟩ = true ∧
    denseSeq.toStrided.linear ⟨![1, 2]⟩ ≤
      ∑ i, (denseSeq.toStrided.shape i - 1) * denseSeq.toStrided.strides i :=
  ⟨by decide,
    (Strided.linear_within_span Rank.two denseSeq.toStrided
      (by simp [Rank.val, Fin.sum_univ_succ]; decide) ⟨![1, 2]⟩ (by decide)).2.1⟩

/-! ## Claims about launch geometry -/

/-- C20: for every rank and a fixed block extent, if two threads have, on
each grid axis the rank uses (`x`; `y` from rank 2; `z` for rank 3), a thread
index below the block extent and a coordinate
`blockIdx.d * blockDim.d + threadIdx.d` of at most `2 ^ 32 - 1`, then equal
logical positions imply equal block index and thread index on those axes. -/
theorem Logical.init_injective (R : Rank) (blockDim : dim3) (b₁ t₁ b₂ t₂ : uint3)
    (hx : t₁.x < blockDim.x ∧ t₂.x < blockDim.x ∧
      b₁.x * blockDim.x + t₁.x ≤ 2 ^ 32 - 1 ∧ b₂.x * blockDim.x + t₂.x ≤ 2 ^ 32 - 1)
    (hy : 2 ≤ R.val → t₁.y < blockDim.y ∧ t₂.y < blockDim.y ∧
      b₁.y * blockDim.y + t₁.y ≤ 2 ^ 32 - 1 ∧ b₂.y * blockDim.y + t₂.y ≤ 2 ^ 32 - 1)
    (hz : 3 ≤ R.val → t₁.z < blockDim.z ∧ t₂.z < blockDim.z ∧
      b₁.z * blockDim.z + t₁.z ≤ 2 ^ 32 - 1 ∧ b₂.z * blockDim.z + t₂.z ≤ 2 ^ 32 - 1)
    (heq : Logical.init R b₁ blockDim t₁ = Logical.init R b₂ blockDim t₂) :
    (b₁.x = b₂.x ∧ t₁.x = t₂.x) ∧
    (2 ≤ R.val → b₁.y = b₂.y ∧ t₁.y = t₂.y) ∧
    (3 ≤ R.val → b₁.z = b₂.z ∧ t₁.z = t₂.z) := by
  cases R
  · have ex := congrArg (fun p : Logical Rank.one => p.get ⟨0, by decide⟩) heq
    refine ⟨gridCoord_injective _ _ _ _ _ hx.1 hx.2.1 hx.2.2.1 hx.2.2.2 ex, ?_, ?_⟩
    · intro h; simp [Rank.val] at h
    · intro h; simp [Rank.val] at h
  · have ey := congrArg (fun p : Logical Rank.two => p.get ⟨0, by decide⟩) heq
    have ex := congrArg (fun p : Logical Rank.two => p.get ⟨1, by decide⟩) heq
    have hy2 := hy (by decide)
    refine ⟨gridCoord_injective _ _ _ _ _ hx.1 hx.2.1 hx.2.2.1 hx.2.2.2 ex, fun _ => ?_, ?_⟩
    · exact gridCoord_injective _ _ _ _ _ hy2.1 hy2.2.1 hy2.2.2.1 hy2.2.2.2 ey
    · intro h; simp [Rank.val] at h
  · have ez := congrArg (fun p : Logical Rank.three => p.get ⟨0, by decide⟩) heq
    have ey := congrArg (fun p : Logical Rank.three => p.get ⟨1, by decide⟩) heq
    have ex := congrArg (fun p : Logical Rank.three => p.get ⟨2, by decide⟩) heq
    have hy2 := hy (by decide)
    have hz2 := hz (by decide)
    exact ⟨gridCoord_injective _ _ _ _ _ hx.1 hx.2.1 hx.2.2.1 hx.2.2.2 ex,
      fun _ => gridCoord_injective _ _ _ _ _ hy2.1 hy2.2.1 hy2.2.2.1 hy2.2.2.2 ey,
      fun _ => gridCoord_injective _ _ _ _ _ hz2.1 hz2.2.1 hz2.2.2.1 hz2.2.2.2 ez⟩

/-- Witness of C20 for rank 2 with block extent `(4, 4, 1)`: two threads
with thread index `(2, 3, 0)` whose block indexes `(1, 0, 0)` and `(1, 0, 7)`
differ on the unused axis `z` only satisfy the bounds on the axes `x` and
`y` and have the same logical position. -/
theorem Logical.init_injective_witness :
    ((2 : Nat) < 4 ∧ 1 * 4 + 2 ≤ 2 ^ 32 - 1) ∧
    ((3 : Nat) < 4 ∧ 0 * 4 + 3 ≤ 2 ^ 32 - 1) ∧
    Logical.init Rank.two ⟨1, 0, 0⟩ ⟨4, 4, 1⟩ ⟨2, 3, 0⟩
      = Logical.init Rank.two ⟨1, 0, 7⟩ ⟨4, 4, 1⟩ ⟨2, 3, 0⟩ ∧
    ((⟨1, 0, 0⟩ : uint3).x = (⟨1, 0, 7⟩ : uint3).x ∧
      (⟨2, 3, 0⟩ : uint3).x = (⟨2, 3, 0⟩ : uint3).x) :=
  ⟨by decide, by decide, rfl,
    (Logical.init_injective Rank.two ⟨4, 4, 1⟩ ⟨1, 0, 0⟩ ⟨2, 3, 0⟩ ⟨1, 0, 7⟩ ⟨2, 3, 0⟩
      (by decide) (fun _ => by decide) (fun h => absurd h (by decide)) rfl).1⟩

/-! ## Claims about `sign` -/

/-- The conversions `T(0)` and `T(1)` keep the value for every integer type,
and `T(-1)` keeps it for every signed type. -/
theorem IntType.convert_small (T : IntType) :
    T.convert 0 = 0 ∧ T.convert 1 = 1 ∧ (T.isSigned = true → T.convert (-1) = -1) := by
  cases T <;> decide

/-- The template `sign<T>` on the values of `T`: `-1` below zero, `1`
otherwise, never `0`, and the result is a value of `T`. -/
theorem sign_range_cases (T : IntType) (a : Int) (h : T.InRange a) :
    (a < 0 → sign T a = -1) ∧ (¬ a < 0 → sign T a = 1) ∧ sign T a ≠ 0 ∧
    T.InRange (sign T a) := by
  obtain ⟨h0, h1, hm⟩ := T.convert_small
  have hr1 : T.InRange 1 := by cases T <;> decide
  by_cases ha : a < 0
  · have hs : T.isSigned = true := by
      cases hsg : T.isSigned
      · simp only [IntType.InRange, hsg] at h
        simp at h
        omega
      · rfl
    have e : sign T a = -1 := by
      unfold sign
      rw [h0, if_pos ha, hm hs]
    have hrm : T.InRange (-1) := by
      revert hs
      cases T <;> decide
    rw [e]
    exact ⟨fun _ => rfl, fun hn => absurd ha hn, by decide, hrm⟩
  · have e : sign T a = 1 := by
      unfold sign
      rw [h0, if_neg ha, h1]
    rw [e]
    exact ⟨fun hn => absurd hn ha, fun _ => rfl, by decide, hr1⟩

/-- A lane computed as `a < 0 ? -1 : 1` and stored into a signed 8-bit or
16-bit lane is the template `sign` at that lane. -/
theorem sign_lane_eq (a : Int) :
    IntType.int8_t.convert (if a < 0 then -1 else 1) = sign IntType.int8_t a ∧
    IntType.int16_t.convert (if a < 0 then -1 else 1) = sign IntType.int16_t a := by
  have h8 := IntType.int8_t.convert_small
  have h16 := IntType.int16_t.convert_small
  unfold sign
  rw [h8.1, h16.1]
  constructor <;> split_ifs <;> rfl

/-- C21: `sign` never returns `0` for an integer element type.  The template
`sign<T>` returns `-1` at a value below zero and `1` at every other value of
`T` (so `sign(0) = 1`); the overloads for `uint16_t` and `uint8_t` return `1`;
every lane of the `uchar4` result (constant `0x01010101`) and of the
`ushort2` result (constant `0x00010001`) is `1`, in either byte order; and
every lane of the `char4` and `short2` results is the template `sign` of the
same lane of the argument, hence not `0`. -/
theorem sign_never_zero :
    (∀ (T : IntType) (a : Int), T.InRange a →
      (a < 0 → sign T a = -1) ∧ (¬ a < 0 → sign T a = 1) ∧ sign T a ≠ 0) ∧
    (∀ T : IntType, sign T 0 = 1) ∧
    (∀ a : Nat, sign_uint16 a = 1 ∧ sign_uint8 a = 1) ∧
    (∀ (order : ByteOrder) (a : uchar4),
      (sign_uchar4 order a).x = 1 ∧ (sign_uchar4 order a).y = 1 ∧
      (sign_uchar4 order a).z = 1 ∧ (sign_uchar4 order a).w = 1) ∧
    (∀ (order : ByteOrder) (a : ushort2),
      (sign_ushort2 order a).x = 1 ∧ (sign_ushort2 order a).y = 1) ∧
    (∀ a : char4,
      (sign_char4 a).x = sign IntType.int8_t a.x ∧
      (sign_char4 a).y = sign IntType.int8_t a.y ∧
      (sign_char4 a).z = sign IntType.int8_t a.z ∧
      (sign_char4 a).w = sign IntType.int8_t a.w ∧
      (sign_char4 a).x ≠ 0 ∧ (sign_char4 a).y ≠ 0 ∧
      (sign_char4 a).z ≠ 0 ∧ (sign_char4 a).w ≠ 0) ∧
    (∀ a : short2,
      (sign_short2 a).x = sign IntType.int16_t a.x ∧
      (sign_short2 a).y = sign IntType.int16_t a.y ∧
      (sign_short2 a).x ≠ 0 ∧ (sign_short2 a).y ≠ 0) := by
  have hne8 : ∀ a : Int, IntType.int8_t.convert (if a < 0 then -1 else 1) ≠ 0 := by
    intro a
    by_cases ha : a < 0
    · rw [if_pos ha]; decide
    · rw [if_neg ha]; decide
  have hne16 : ∀ a : Int, IntType.int16_t.convert (if a < 0 then -1 else 1) ≠ 0 := by
    intro a
    by_cases ha : a < 0
    · rw [if_pos ha]; decide
    · rw [if_neg ha]; decide
  have hu4 : ∀ order : ByteOrder,
      (CAST_uchar4 order 0x01010101).x = 1 ∧ (CAST_uchar4 order 0x01010101).y = 1 ∧
      (CAST_uchar4 order 0x01010101).z = 1 ∧ (CAST_uchar4 order 0x01010101).w = 1 := by
    intro order
    cases order <;> decide
  have hu2 : ∀ order : ByteOrder,
      (CAST_ushort2 order 0x00010001).x = 1 ∧ (CAST_ushort2 order 0x00010001).y = 1 := by
    intro order
    cases order <;> decide
  refine ⟨fun T a h => ?_, fun T => ?_, fun _ => ⟨rfl, rfl⟩, fun order _ => hu4 order,
    fun order _ => hu2 order, fun a => ?_, fun a => ?_⟩
  · have := sign_range_cases T a h
    exact ⟨this.1, this.2.1, this.2.2.1⟩
  · cases T <;> decide
  · exact ⟨(sign_lane_eq a.x).1, (sign_lane_eq a.y).1, (sign_lane_eq a.z).1,
      (sign_lane_eq a.w).1, hne8 a.x, hne8 a.y, hne8 a.z, hne8 a.w⟩
  · exact ⟨(sign_lane_eq a.x).2, (sign_lane_eq a.y).2, hne16 a.x, hne16 a.y⟩

end SwiftRT
